import Mathlib

/-!
Verification development for the node hot-reload core.

The source under verification is the module in `src` (the TypeScript file and
its compiled JavaScript): it installs hooks on the module loader's
`require`/`load`, keeps a per-file registry, maintains a dependency graph,
propagates reloads through that graph (`reload`), and patches constructor
identities (`hot.patch`, `patchExports`).

External collaborators that are not part of the sources (the `Graph` class
from `./graph`, the helpers from `./utils`, the file watcher, the eligibility
filter) are modelled from the specification; every such definition carries a
doc comment saying so.

Conventions of the embedding:
* a module object is identified by its canonical filename (a `String`);
* `process.mainModule` is a distinguished filename passed as a parameter;
* JavaScript `Set` iteration order is insertion order, modelled by lists with
  an add-if-absent operation;
* the watcher, the module cache and the log of issued require calls are
  explicit fields of the system state `St`.
-/

namespace NodeHot

/-- The opaque stash map a module stores across a reload (application data). -/
abbrev Stash := List (String × Nat)

/-- A dependency graph: directed edges `(dependent, dependency)`.
Modelled from the spec: the `Graph` class of `./graph` is not among the
sources; §4.1 of the spec specifies `addDependency`, `removeDependencies`
and `getDependantsOf`, which are defined below. -/
structure Graph where
  edges : List (String × String)
deriving DecidableEq

/-- Modelled from the spec: inserts the directed edge; no-op if present. -/
def Graph.addDependency (g : Graph) (dependent dependency : String) : Graph :=
  if (dependent, dependency) ∈ g.edges then g
  else ⟨g.edges ++ [(dependent, dependency)]⟩

/-- Modelled from the spec: deletes every outgoing edge of `dependent` and
returns the dependencies that have no other dependent afterwards. -/
def Graph.removeDependencies (g : Graph) (dependent : String) :
    Graph × List String :=
  let removed := (g.edges.filter (fun e => decide (e.1 = dependent))).map (·.2)
  let g' : Graph := ⟨g.edges.filter (fun e => !decide (e.1 = dependent))⟩
  (g', removed.filter (fun dep => !g'.edges.any (fun e => decide (e.2 = dep))))

/-- Modelled from the spec: every dependent with a live edge to `dependency`,
in the graph's (deterministic) edge order. -/
def Graph.getDependantsOf (g : Graph) (dependency : String) : List String :=
  (g.edges.filter (fun e => decide (e.2 = dependency))).map (·.1)

/-- A JavaScript value as far as the patcher cares: callable or not. -/
inductive JsVal where
  | fn (code : Nat) : JsVal
  | data (v : Nat) : JsVal
deriving DecidableEq

/-- `typeof v === 'function'`. -/
def JsVal.callable : JsVal → Bool
  | .fn _ => true
  | .data _ => false

/-- Own properties of a JavaScript object, in property order. -/
abbrev Props := List (String × JsVal)

/-- Writing a property: overwrite in place if the key exists, else append. -/
def setProp (ps : Props) (k : String) (v : JsVal) : Props :=
  if ps.any (fun p => decide (p.1 = k)) then
    ps.map (fun p => if p.1 = k then (k, v) else p)
  else ps ++ [(k, v)]

/-- Modelled from the spec: `utils.assign` (not among the sources) copies
every own field of `source` whose callability passes the filter onto
`target` (the filter is over `typeof`, §4.4 steps a–c). -/
def assign (target source : Props) (filter : Bool → Bool) : Props :=
  source.foldl (fun t kv => if filter kv.2.callable then setProp t kv.1 kv.2 else t)
    target

/-- A constructor object: declared name, own static fields, own fields of its
`prototype`, and the delegation target of its `prototype`. -/
structure CtorObj where
  name : String
  statics : Props
  protoProps : Props
  protoDeleg : Nat
deriving DecidableEq

/-- Constructors are mutable heap objects referenced by index. -/
abbrev Heap := List CtorObj

def Heap.getC (h : Heap) (i : Nat) : CtorObj :=
  h.getD i ⟨"", [], [], 0⟩

def Heap.setC (h : Heap) (i : Nat) (c : CtorObj) : Heap :=
  h.set i c

/-- One iteration of the inner loop of `hot.patch` (source lines 210–231):
given the current constructor `cid` and one historical identity `oldId`,
(a) copy non-callable statics of old onto current, (b) copy callable statics
of current onto old, (c) copy callable prototype members of current onto
old's prototype, (d) re-point old's prototype's delegation target. -/
def patchStep (h : Heap) (cid oldId : Nat) : Heap :=
  let h1 := h.setC cid
    { h.getC cid with
      statics := assign (h.getC cid).statics (h.getC oldId).statics (fun c => !c) }
  let h2 := h1.setC oldId
    { h1.getC oldId with
      statics := assign (h1.getC oldId).statics (h1.getC cid).statics (fun c => c) }
  let h3 := h2.setC oldId
    { h2.getC oldId with
      protoProps :=
        assign (h2.getC oldId).protoProps (h2.getC cid).protoProps (fun c => c) }
  h3.setC oldId { h3.getC oldId with protoDeleg := (h3.getC cid).protoDeleg }

/-- The `patchees` map of a registry entry: constructor name to history. -/
abbrev Patchees := List (String × List Nat)

def lookupHist : Patchees → String → Option (List Nat)
  | [], _ => none
  | p :: ps, n => if p.1 = n then some p.2 else lookupHist ps n

/-- `Map.set`: replace the existing binding in place, else append. -/
def setHist : Patchees → String → List Nat → Patchees
  | [], n, h => [(n, h)]
  | p :: ps, n, h => if p.1 = n then (n, h) :: ps else p :: setHist ps n h

/-- Patcher state: the constructor heap and one entry's `patchees` map. -/
structure PatchSt where
  heap : Heap
  patchees : Patchees
deriving DecidableEq

/-- Processing of one constructor argument by `hot.patch` (source lines
203–234): look up or create the history for its name, run `patchStep`
against every recorded identity oldest to newest, then append it. -/
def patchOne (st : PatchSt) (cid : Nat) : PatchSt :=
  let name := (st.heap.getC cid).name
  let history := (lookupHist st.patchees name).getD []
  { heap := history.foldl (fun h old => patchStep h cid old) st.heap,
    patchees := setHist st.patchees name (history ++ [cid]) }

/-- `hot.patch(...constructors)`: processes the arguments in order. -/
def hotPatch (st : PatchSt) (cs : List Nat) : PatchSt :=
  cs.foldl patchOne st

/-- A registry entry (source lines 39–48). `mod` is the owning module,
identified by its filename; `storeRegistered`/`storeVal` model the `store`
field: `false` is the initial no-op, registering a handler makes the next
invocation stash `storeVal`. -/
structure RegistryEntry where
  mod : String
  filename : String
  accepted : Bool := false
  stash : Option Stash := none
  patchees : Patchees := []
  storeRegistered : Bool := false
  storeVal : Stash := []
deriving DecidableEq

/-- `hot.accept` (source lines 185–187). -/
def hotAccept (e : RegistryEntry) : RegistryEntry :=
  { e with accepted := true }

/-- `hot.store` (source lines 188–193): registers the handler; `v` is the
map contents the stasher writes into the fresh stash when invoked. -/
def hotStore (e : RegistryEntry) (v : Stash) : RegistryEntry :=
  { e with storeRegistered := true, storeVal := v }

/-- Invoking `entry.store()` as `reload` does (source line 132). -/
def invokeStore (e : RegistryEntry) : RegistryEntry :=
  if e.storeRegistered then { e with stash := some e.storeVal } else e

/-- `hot.restore` (source lines 194–199): first component is the stash
handed to the callback (`none` when the callback is not invoked). -/
def hotRestore (e : RegistryEntry) : Option Stash × RegistryEntry :=
  match e.stash with
  | some s => (some s, { e with stash := none })
  | none => (none, e)

/-- `hot.patch` at the registry-entry level: updates the entry's `patchees`
and mutates the constructor heap. -/
def entryPatch (e : RegistryEntry) (heap : Heap) (cs : List Nat) :
    RegistryEntry × Heap :=
  let r := hotPatch ⟨heap, e.patchees⟩ cs
  ({ e with patchees := r.patchees }, r.heap)

/-- Configuration (source lines 17–21, 96–100); the `exclude` patterns are
only consumed by the external eligibility filter. -/
structure Cfg where
  silent : Bool := false
  patchExports : Bool := false
  exclude : List String := []
deriving DecidableEq

/-- The `Options` argument of `configure`: absent fields are not merged. -/
structure Options where
  silent : Option Bool := none
  patchExports : Option Bool := none
  exclude : Option (List String) := none
deriving DecidableEq

/-- `configure` (source lines 253–255): shallow merge into the config. -/
def configure (c : Cfg) (o : Options) : Cfg :=
  { silent := o.silent.getD c.silent,
    patchExports := o.patchExports.getD c.patchExports,
    exclude := o.exclude.getD c.exclude }

/-- The whole mutable system state: config, registry, graph, module cache,
watched paths, and the accumulators of a change event (`acceptees`,
`reloaded`, the order `log` of processed entries, the issued require calls
as `(caller module, path)` pairs). -/
structure St where
  cfg : Cfg := {}
  registry : List RegistryEntry := []
  graph : Graph := ⟨[]⟩
  cache : List String := []
  watched : List String := []
  acceptees : List String := []
  reloaded : List String := []
  log : List String := []
  requireCalls : List (String × String) := []
deriving DecidableEq

/-- JavaScript `Set.add` / chokidar `watcher.add`: insertion order kept. -/
def addIfAbsent (l : List String) (x : String) : List String :=
  if x ∈ l then l else l ++ [x]

/-- `_registry.get(filename)`. -/
def findEntry : List RegistryEntry → String → Option RegistryEntry
  | [], _ => none
  | e :: es, f => if e.filename = f then some e else findEntry es f

/-- In-place mutation of the entry stored under a filename. -/
def updateEntry (reg : List RegistryEntry) (f : String)
    (u : RegistryEntry → RegistryEntry) : List RegistryEntry :=
  reg.map (fun e => if e.filename = f then u e else e)

/-- `registerFile` (source lines 164–172): get-or-create, never overwrites. -/
def registerFile (reg : List RegistryEntry) (mod f : String) :
    List RegistryEntry × RegistryEntry :=
  match findEntry reg f with
  | some e => (reg, e)
  | none => (reg ++ [{ mod := mod, filename := f }], { mod := mod, filename := f })

/-- `injectFile` (source lines 179–237): skipped when the module already
carries a hot handle, otherwise registers the file. -/
def injectFile (reg : List RegistryEntry) (modHasHot : Bool) (mod f : String) :
    List RegistryEntry :=
  if modHasHot then reg else (registerFile reg mod f).1

/-- `configure` lifted to the system state (it only touches the config). -/
def configureSt (st : St) (o : Options) : St :=
  { st with cfg := configure st.cfg o }

/-- The straight-line part of one `reload` call (source lines 131–141):
mark visited, invoke the entry's store, evict the cache entry, remove the
outgoing edges, unwatch the dependencies that lost their last dependent,
and append the filename to the processing log. -/
def reloadBody (st : St) (f : String) : St :=
  let gr := st.graph.removeDependencies f
  { st with
    reloaded := addIfAbsent st.reloaded f,
    registry := updateEntry st.registry f invokeStore,
    cache := st.cache.filter (fun p => !decide (p = f)),
    graph := gr.1,
    watched := st.watched.filter (fun p => !decide (p ∈ gr.2)),
    log := st.log ++ [f] }

/-- The dependants consulted by `reload` at step 5: computed on the graph
after this module's own outgoing edges were removed (source lines 138–144). -/
def reloadDependants (st : St) (f : String) : List String :=
  (st.graph.removeDependencies f).1.getDependantsOf f

/-- The recursion over the dependants list (source lines 148–153): skip
dependants without a registry entry and dependants already visited. -/
def reloadChildren (go : St → String → Option St) :
    St → List String → Option St
  | st, [] => some st
  | st, d :: ds =>
    match findEntry st.registry d with
    | none => reloadChildren go st ds
    | some _ =>
      if d ∈ st.reloaded then reloadChildren go st ds
      else
        match go st d with
        | none => none
        | some st' => reloadChildren go st' ds

/-- `reload` (source lines 126–157), with explicit fuel for the recursion;
`none` means the fuel ran out (shown impossible for enough fuel below). -/
def reloadAux : Nat → St → String → Option St
  | 0, _, _ => none
  | fuel + 1, st, f =>
    match findEntry st.registry f with
    | none => some st
    | some entry =>
      let st1 := reloadBody st f
      let deps := st1.graph.getDependantsOf f
      if entry.accepted || decide (deps = []) then
        some { st1 with acceptees := addIfAbsent st1.acceptees f }
      else
        reloadChildren (reloadAux fuel) st1 deps

/-- The top-level `reload(entry)` call with sufficient fuel. -/
def reloadTop (st : St) (f : String) : Option St :=
  reloadAux (st.registry.length + 1) st f

/-- The watcher change handler (source lines 107–118): looks up the entry,
runs `reload`, then issues one require call per acceptee — with the changed
file's `entry.mod` as the caller. -/
def onChange (st : St) (file : String) : St :=
  match findEntry st.registry file with
  | none => st
  | some entry =>
    match reloadTop st file with
    | none => st
    | some r =>
      { r with
        requireCalls :=
          r.requireCalls ++ r.acceptees.map (fun a => (entry.mod, a)) }

/-- The hooked `Module.prototype.require` (source lines 59–80): `elig` is
the external eligibility filter, `main` is `process.mainModule`, `caller`
the requiring module and `path` the resolved filename of the dependency
(paths are canonical, so resolution is the identity). -/
def requireHook (elig : String → Bool) (main : String) (st : St)
    (caller path : String) : St :=
  if !elig path then st
  else if !decide (path ∈ st.cache) then st
  else
    let g := if caller = main then st.graph else st.graph.addDependency caller path
    { st with graph := g, watched := addIfAbsent st.watched path }

/-- The hooked require including its return value: every branch returns the
export value produced by the underlying loader unchanged. -/
def requireHookFull (elig : String → Bool) (main : String) (st : St)
    (caller path : String) (xports : Nat) : Nat × St :=
  (xports, requireHook elig main st caller path)

/-- A sequence of hooked require calls, as `(caller, path)` pairs. -/
def runHooks (elig : String → Bool) (main : String) (st : St)
    (calls : List (String × String)) : St :=
  calls.foldl (fun s c => requireHook elig main s c.1 c.2) st

/-- A module's export value as far as `patchExports` inspects it. -/
inductive JsExport where
  | obj (props : List (String × JsExport)) : JsExport
  | ctorLike (id : Nat) : JsExport
  | prim (n : Nat) : JsExport

/-- Modelled from the spec: `utils.isPlainObject` (not among the sources)
recognises a plain mapping. -/
def isPlainObject : JsExport → Bool
  | .obj _ => true
  | _ => false

/-- Modelled from the spec: `utils.isConstructorLike` (not among the
sources) recognises a constructor-like value. -/
def isConstructorLike : JsExport → Bool
  | .ctorLike _ => true
  | _ => false

/-- `Object.getOwnPropertyNames` traversal: the own-property values of a
plain object, in property order. -/
def ownValues : JsExport → List JsExport
  | .obj ps => ps.map (·.2)
  | _ => []

/-- `patchExports` (source lines 239–250), recording which values are passed
to `hot.patch`, in call order. -/
def patchExportsTargets (e : JsExport) : List JsExport :=
  if isPlainObject e then (ownValues e).filter isConstructorLike
  else if isConstructorLike e then [e] else []

/-- The schedule of `(current, old)` patch pairs the claim describes: for
each constructor in argument order, every identity already recorded for its
name, oldest to newest, with the constructor itself appended before the
next argument is processed. Only the names of the heap are consulted. -/
def patchPairs (ps : Patchees) (h : Heap) : List Nat → List (Nat × Nat)
  | [] => []
  | c :: rest =>
    let hist := (lookupHist ps (h.getC c).name).getD []
    hist.map (fun o => (c, o)) ++
      patchPairs (setHist ps (h.getC c).name (hist ++ [c])) h rest

/-- Forgetting the one entry field `reload` may write (the stash). -/
def eraseStash (e : RegistryEntry) : RegistryEntry :=
  { e with stash := none }

/-- The filenames having a registry entry. -/
def regKeys (s : St) : List String :=
  s.registry.map (·.filename)

/-- Number of registered files not yet visited: the measure of `reload`. -/
def mu (s : St) : Nat :=
  ((regKeys s).filter (fun x => !decide (x ∈ s.reloaded))).length

/-- What one `reload` call may do to the state outside the graph, cache and
watch set: entries change at most their stash, `reloaded` and `acceptees`
only grow, the config and the issued require calls are untouched. -/
def StepRel (s r : St) : Prop :=
  r.cfg = s.cfg ∧
  r.registry.map eraseStash = s.registry.map eraseStash ∧
  (∀ x ∈ s.reloaded, x ∈ r.reloaded) ∧
  (∀ x ∈ s.acceptees, x ∈ r.acceptees) ∧
  r.requireCalls = s.requireCalls

/-- The processing log is duplicate-free and covered by the visited set. -/
def LogInv (s : St) : Prop :=
  s.log.Nodup ∧ ∀ x ∈ s.log, x ∈ s.reloaded

/-- Concrete state for C1's counterexample: the (eligible, cached, watched)
file f is required by the ineligible module X, so the hook records the edge
(X, f) although X has no registry entry; built through the hook itself. -/
def c1St : St :=
  runHooks (fun p => decide (p = "f")) "main"
    { registry := [{ mod := "f", filename := "f" }], cache := ["X", "f"] }
    [("X", "f")]

/-- Concrete chain for C2's counterexample: entry point A requires B, B
requires C, everything eligible and cached, nothing accepted. -/
def c2St : St :=
  runHooks (fun _ => true) "A"
    { registry :=
        [{ mod := "A", filename := "A" }, { mod := "B", filename := "B" },
         { mod := "C", filename := "C" }],
      cache := ["A", "B", "C"] }
    [("A", "B"), ("B", "C")]

/-- Concrete cyclic graph for C3's witness: A and B depend on each other. -/
def c3St : St :=
  { registry := [{ mod := "A", filename := "A" }, { mod := "B", filename := "B" }],
    graph := ⟨[("A", "B"), ("B", "A")]⟩, cache := ["A", "B"] }

/-- Concrete state for C4: B requires C, C changes, B is the acceptee. -/
def c4St : St :=
  { registry := [{ mod := "B", filename := "B" }, { mod := "C", filename := "C" }],
    graph := ⟨[("B", "C")]⟩, cache := ["B", "C"], watched := ["C"] }

/-! ## Basic lemmas about the helpers -/

theorem mem_addIfAbsent_self (l : List String) (x : String) :
    x ∈ addIfAbsent l x := by
  unfold addIfAbsent
  split
  · assumption
  · simp

theorem mem_addIfAbsent_of_mem {l : List String} {y : String} (x : String)
    (h : y ∈ l) : y ∈ addIfAbsent l x := by
  unfold addIfAbsent
  split
  · exact h
  · simp [h]

theorem mem_of_mem_addIfAbsent {l : List String} {x y : String}
    (h : y ∈ addIfAbsent l x) : y ∈ l ∨ y = x := by
  unfold addIfAbsent at h
  split at h
  · exact Or.inl h
  · simpa using h

theorem invokeStore_filename (e : RegistryEntry) :
    (invokeStore e).filename = e.filename := by
  unfold invokeStore
  split <;> rfl

theorem invokeStore_accepted (e : RegistryEntry) :
    (invokeStore e).accepted = e.accepted := by
  unfold invokeStore
  split <;> rfl

theorem eraseStash_invokeStore (e : RegistryEntry) :
    eraseStash (invokeStore e) = eraseStash e := by
  unfold invokeStore
  split <;> rfl

theorem eraseStash_filename (e : RegistryEntry) :
    (eraseStash e).filename = e.filename := rfl

theorem findEntry_some_filename {reg : List RegistryEntry} {f : String}
    {e : RegistryEntry} (h : findEntry reg f = some e) : e.filename = f := by
  induction reg with
  | nil => simp [findEntry] at h
  | cons a l ih =>
    unfold findEntry at h
    split at h
    · cases h; assumption
    · exact ih h

theorem findEntry_isSome_of_mem {reg : List RegistryEntry} {f : String}
    (h : f ∈ reg.map (·.filename)) : ∃ e, findEntry reg f = some e := by
  induction reg with
  | nil => simp at h
  | cons a l ih =>
    unfold findEntry
    by_cases hf : a.filename = f
    · exact ⟨a, by simp [hf]⟩
    · simp only [List.map_cons, List.mem_cons] at h
      rcases h with h | h
      · exact absurd h.symm hf
      · simpa [hf] using ih h

theorem findEntry_mem_of_some {reg : List RegistryEntry} {f : String}
    {e : RegistryEntry} (h : findEntry reg f = some e) :
    f ∈ reg.map (·.filename) := by
  induction reg with
  | nil => simp [findEntry] at h
  | cons a l ih =>
    unfold findEntry at h
    split at h
    · simp_all
    · simp [ih h]

theorem findEntry_append_of_some {reg : List RegistryEntry} {f : String}
    {e : RegistryEntry} (l : List RegistryEntry)
    (h : findEntry reg f = some e) : findEntry (reg ++ l) f = some e := by
  induction reg with
  | nil => simp [findEntry] at h
  | cons a r ih =>
    unfold findEntry at h
    show (if a.filename = f then some a else findEntry (r ++ l) f) = some e
    by_cases hf : a.filename = f
    · rw [if_pos hf] at h ⊢
      exact h
    · rw [if_neg hf] at h ⊢
      exact ih h

theorem findEntry_map_eraseStash {reg reg' : List RegistryEntry}
    (h : reg'.map eraseStash = reg.map eraseStash) (f : String) :
    (findEntry reg' f).map eraseStash = (findEntry reg f).map eraseStash := by
  induction reg generalizing reg' with
  | nil =>
    have : reg' = [] := by
      cases reg' with
      | nil => rfl
      | cons a l => simp at h
    simp [this]
  | cons a l ih =>
    cases reg' with
    | nil => simp at h
    | cons a' l' =>
      simp only [List.map_cons, List.cons.injEq] at h
      have hf : a'.filename = a.filename := by
        have := congrArg RegistryEntry.filename h.1
        simpa [eraseStash_filename] using this
      unfold findEntry
      by_cases hcase : a.filename = f
      · simp [hcase, hf, h.1]
      · have : ¬ a'.filename = f := by rw [hf]; exact hcase
        simp only [hcase, this, if_neg, if_false]
        exact ih h.2

/-! ## Lemmas about one reload body step -/

theorem reloadBody_registry_proj (s : St) (f : String) :
    (reloadBody s f).registry.map eraseStash = s.registry.map eraseStash := by
  show (updateEntry s.registry f invokeStore).map eraseStash = _
  unfold updateEntry
  rw [List.map_map]
  apply List.map_congr_left
  intro e _
  by_cases h : e.filename = f <;> simp [h, eraseStash_invokeStore]

theorem regKeys_of_map_eraseStash {s r : St}
    (h : r.registry.map eraseStash = s.registry.map eraseStash) :
    regKeys r = regKeys s := by
  unfold regKeys
  have h1 : (r.registry.map eraseStash).map (·.filename)
      = (s.registry.map eraseStash).map (·.filename) := by rw [h]
  simpa [List.map_map, Function.comp, eraseStash_filename] using h1

theorem regKeys_reloadBody (s : St) (f : String) :
    regKeys (reloadBody s f) = regKeys s :=
  regKeys_of_map_eraseStash (reloadBody_registry_proj s f)

theorem reloadBody_reloaded (s : St) (f : String) :
    (reloadBody s f).reloaded = addIfAbsent s.reloaded f := rfl

theorem reloadBody_acceptees (s : St) (f : String) :
    (reloadBody s f).acceptees = s.acceptees := rfl

theorem reloadBody_log (s : St) (f : String) :
    (reloadBody s f).log = s.log ++ [f] := rfl

theorem stepRel_refl (s : St) : StepRel s s :=
  ⟨rfl, rfl, fun _ h => h, fun _ h => h, rfl⟩

theorem stepRel_trans {s t u : St} (h1 : StepRel s t) (h2 : StepRel t u) :
    StepRel s u :=
  ⟨h2.1.trans h1.1, h2.2.1.trans h1.2.1,
    fun x hx => h2.2.2.1 x (h1.2.2.1 x hx),
    fun x hx => h2.2.2.2.1 x (h1.2.2.2.1 x hx),
    h2.2.2.2.2.trans h1.2.2.2.2⟩

theorem stepRel_reloadBody (s : St) (f : String) : StepRel s (reloadBody s f) :=
  ⟨rfl, reloadBody_registry_proj s f,
    fun _ hx => mem_addIfAbsent_of_mem f hx,
    fun _ hx => hx, rfl⟩

theorem stepRel_addAcceptee (s : St) (f : String) :
    StepRel s { s with acceptees := addIfAbsent s.acceptees f } :=
  ⟨rfl, rfl, fun _ hx => hx, fun _ hx => mem_addIfAbsent_of_mem f hx, rfl⟩

/-- Unfolding of `reloadAux` at positive fuel. -/
theorem reloadAux_succ (fuel : Nat) (st : St) (f : String) :
    reloadAux (fuel + 1) st f =
      match findEntry st.registry f with
      | none => some st
      | some entry =>
        if entry.accepted || decide ((reloadBody st f).graph.getDependantsOf f = []) then
          some { reloadBody st f with
                  acceptees := addIfAbsent (reloadBody st f).acceptees f }
        else
          reloadChildren (reloadAux fuel) (reloadBody st f)
            ((reloadBody st f).graph.getDependantsOf f) := rfl

/-- The dependants of step 5 are those of the state after the body. -/
theorem reloadDependants_eq (st : St) (f : String) :
    reloadDependants st f = (reloadBody st f).graph.getDependantsOf f := rfl

theorem reloadAux_succ_none (fuel : Nat) {st : St} {f : String}
    (hfind : findEntry st.registry f = none) :
    reloadAux (fuel + 1) st f = some st := by
  rw [reloadAux_succ]
  simp only [hfind]

theorem reloadAux_succ_some (fuel : Nat) {st : St} {f : String}
    {entry : RegistryEntry} (hfind : findEntry st.registry f = some entry) :
    reloadAux (fuel + 1) st f =
      if entry.accepted || decide ((reloadBody st f).graph.getDependantsOf f = []) then
        some { reloadBody st f with
                acceptees := addIfAbsent (reloadBody st f).acceptees f }
      else
        reloadChildren (reloadAux fuel) (reloadBody st f)
          ((reloadBody st f).graph.getDependantsOf f) := by
  rw [reloadAux_succ]
  simp only [hfind]

theorem reloadChildren_nil (go : St → String → Option St) (s : St) :
    reloadChildren go s [] = some s := rfl

theorem reloadChildren_cons_none {go : St → String → Option St} {s : St}
    {d : String} (ds : List String) (hfind : findEntry s.registry d = none) :
    reloadChildren go s (d :: ds) = reloadChildren go s ds := by
  simp only [reloadChildren, hfind]

theorem reloadChildren_cons_visited {go : St → String → Option St} {s : St}
    {d : String} {e : RegistryEntry} (ds : List String)
    (hfind : findEntry s.registry d = some e) (hd : d ∈ s.reloaded) :
    reloadChildren go s (d :: ds) = reloadChildren go s ds := by
  simp only [reloadChildren, hfind]
  rw [if_pos hd]

theorem reloadChildren_cons_fail {go : St → String → Option St} {s : St}
    {d : String} {e : RegistryEntry} (ds : List String)
    (hfind : findEntry s.registry d = some e) (hd : d ∉ s.reloaded)
    (hcall : go s d = none) :
    reloadChildren go s (d :: ds) = none := by
  simp only [reloadChildren, hfind]
  rw [if_neg hd]
  simp only [hcall]

theorem reloadChildren_cons_call {go : St → String → Option St} {s st' : St}
    {d : String} {e : RegistryEntry} (ds : List String)
    (hfind : findEntry s.registry d = some e) (hd : d ∉ s.reloaded)
    (hcall : go s d = some st') :
    reloadChildren go s (d :: ds) = reloadChildren go st' ds := by
  simp only [reloadChildren, hfind]
  rw [if_neg hd]
  simp only [hcall]

/-! ## Invariants of the reload recursion -/

theorem reloadChildren_rel {go : St → String → Option St}
    (hgo : ∀ s d r, go s d = some r → StepRel s r) :
    ∀ ds s r, reloadChildren go s ds = some r → StepRel s r := by
  intro ds
  induction ds with
  | nil =>
    intro s r h
    cases h
    exact stepRel_refl _
  | cons d ds ih =>
    intro s r h
    unfold reloadChildren at h
    split at h
    · exact ih s r h
    · split at h
      · exact ih s r h
      · split at h
        · cases h
        · next st' heq =>
          exact stepRel_trans (hgo _ _ _ heq) (ih st' r h)

theorem reloadAux_rel :
    ∀ fuel s f r, reloadAux fuel s f = some r → StepRel s r := by
  intro fuel
  induction fuel with
  | zero => intro s f r h; cases h
  | succ fuel ih =>
    intro s f r h
    rw [reloadAux_succ] at h
    split at h
    · cases h
      exact stepRel_refl _
    · split at h
      · cases h
        exact stepRel_trans (stepRel_reloadBody s f) (stepRel_addAcceptee _ f)
      · exact stepRel_trans (stepRel_reloadBody s f)
          (reloadChildren_rel ih _ _ _ h)

theorem reloadChildren_fuelMono {go go' : St → String → Option St}
    (hgo : ∀ s d r, go s d = some r → go' s d = some r) :
    ∀ ds s r, reloadChildren go s ds = some r →
      reloadChildren go' s ds = some r := by
  intro ds
  induction ds with
  | nil => intro s r h; exact h
  | cons d ds ih =>
    intro s r h
    cases hfind : findEntry s.registry d with
    | none =>
      rw [reloadChildren_cons_none ds hfind] at h ⊢
      exact ih s r h
    | some e =>
      by_cases hd : d ∈ s.reloaded
      · rw [reloadChildren_cons_visited ds hfind hd] at h ⊢
        exact ih s r h
      · cases hcall : go s d with
        | none =>
          rw [reloadChildren_cons_fail ds hfind hd hcall] at h
          cases h
        | some st' =>
          rw [reloadChildren_cons_call ds hfind hd hcall] at h
          rw [reloadChildren_cons_call ds hfind hd (hgo _ _ _ hcall)]
          exact ih st' r h

theorem reloadAux_fuelMono :
    ∀ fuel fuel' s f r, fuel ≤ fuel' → reloadAux fuel s f = some r →
      reloadAux fuel' s f = some r := by
  intro fuel
  induction fuel with
  | zero => intro fuel' s f r _ h; cases h
  | succ fuel ih =>
    intro fuel' s f r hle h
    obtain ⟨fuel'', rfl⟩ : ∃ k, fuel' = k + 1 :=
      ⟨fuel' - 1, by omega⟩
    have hle' : fuel ≤ fuel'' := by omega
    cases hfind : findEntry s.registry f with
    | none =>
      rw [reloadAux_succ_none fuel hfind] at h
      rw [reloadAux_succ_none fuel'' hfind]
      exact h
    | some e =>
      rw [reloadAux_succ_some fuel hfind] at h
      rw [reloadAux_succ_some fuel'' hfind]
      by_cases hcond :
          (e.accepted || decide ((reloadBody s f).graph.getDependantsOf f = [])) = true
      · rw [if_pos hcond] at h ⊢
        exact h
      · rw [if_neg hcond] at h ⊢
        exact reloadChildren_fuelMono (fun s d r => ih fuel'' s d r hle') _ _ _ h

theorem reloadAux_visits :
    ∀ fuel s f r, f ∈ regKeys s → reloadAux fuel s f = some r →
      f ∈ r.reloaded := by
  intro fuel s f r hkey h
  cases fuel with
  | zero => cases h
  | succ fuel =>
    rw [reloadAux_succ] at h
    have hbody : f ∈ (reloadBody s f).reloaded := by
      rw [reloadBody_reloaded]
      exact mem_addIfAbsent_self _ f
    split at h
    · next hnone =>
      obtain ⟨e, he⟩ := findEntry_isSome_of_mem hkey
      rw [hnone] at he
      cases he
    · split at h
      · cases h
        exact hbody
      · exact (reloadChildren_rel (fun s d r => reloadAux_rel fuel s d r)
          _ _ _ h).2.2.1 f hbody

/-! ## Termination: the measure and fuel sufficiency -/

theorem filter_sublist_of_imp {p q : String → Bool} (l : List String)
    (h : ∀ a, p a = true → q a = true) : (l.filter p).Sublist (l.filter q) := by
  induction l with
  | nil => simp
  | cons a l ih =>
    by_cases hp : p a = true
    · simp only [List.filter_cons, hp, h a hp, if_true]
      exact ih.cons₂ a
    · simp only [List.filter_cons, hp, if_false]
      by_cases hq : q a = true
      · simp only [hq, if_true]
        exact ih.cons a
      · simp only [hq, if_false]
        exact ih

theorem mu_mono {s r : St} (hkeys : regKeys r = regKeys s)
    (hrel : ∀ x ∈ s.reloaded, x ∈ r.reloaded) : mu r ≤ mu s := by
  unfold mu
  rw [hkeys]
  apply List.Sublist.length_le
  apply filter_sublist_of_imp
  intro a ha
  simp only [Bool.not_eq_true', decide_eq_false_iff_not] at ha ⊢
  intro hmem
  exact ha (hrel a hmem)

theorem mu_pos {s : St} {f : String} (hkey : f ∈ regKeys s)
    (hnr : f ∉ s.reloaded) : 1 ≤ mu s := by
  unfold mu
  have : f ∈ (regKeys s).filter (fun x => !decide (x ∈ s.reloaded)) := by
    simp only [List.mem_filter, Bool.not_eq_true', decide_eq_false_iff_not]
    exact ⟨hkey, hnr⟩
  cases hlist : (regKeys s).filter (fun x => !decide (x ∈ s.reloaded)) with
  | nil => rw [hlist] at this; cases this
  | cons a l => simp [hlist]

theorem filter_not_mem_strict {l r : List String} {f : String}
    (hl : f ∈ l) (hr : f ∉ r) :
    (l.filter (fun x => !decide (x ∈ r ++ [f]))).length + 1 ≤
      (l.filter (fun x => !decide (x ∈ r))).length := by
  induction l with
  | nil => cases hl
  | cons a l ih =>
    by_cases haf : a = f
    · subst haf
      have h1 : (!decide (a ∈ r ++ [a])) = false := by simp
      have h2 : (!decide (a ∈ r)) = true := by simp [hr]
      simp only [List.filter_cons, h1, h2, if_false, if_true, List.length_cons,
        Nat.add_le_add_iff_right]
      apply List.Sublist.length_le
      apply filter_sublist_of_imp
      intro x hx
      simp only [Bool.not_eq_true', decide_eq_false_iff_not, List.mem_append,
        List.mem_singleton] at hx ⊢
      intro hmem
      exact hx (Or.inl hmem)
    · have hlf : f ∈ l := by
        cases hl with
        | head => exact absurd rfl haf
        | tail _ h => exact h
      have hiff : (a ∈ r ++ [f]) ↔ (a ∈ r) := by
        simp only [List.mem_append, List.mem_singleton]
        constructor
        · rintro (h | h)
          · exact h
          · exact absurd h haf
        · exact Or.inl
      by_cases har : a ∈ r
      · have h1 : (!decide (a ∈ r ++ [f])) = false := by
          simp [hiff.mpr har]
        have h2 : (!decide (a ∈ r)) = false := by simp [har]
        simp only [List.filter_cons, h1, h2, if_false]
        exact ih hlf
      · have h1 : (!decide (a ∈ r ++ [f])) = true := by
          simp only [Bool.not_eq_true', decide_eq_false_iff_not]
          intro hmem
          exact har (hiff.mp hmem)
        have h2 : (!decide (a ∈ r)) = true := by simp [har]
        simp only [List.filter_cons, h1, h2, if_true, List.length_cons,
          Nat.add_le_add_iff_right]
        exact ih hlf

theorem mu_reloadBody {s : St} {f : String} (hkey : f ∈ regKeys s)
    (hnr : f ∉ s.reloaded) : mu (reloadBody s f) + 1 ≤ mu s := by
  unfold mu
  rw [regKeys_reloadBody, reloadBody_reloaded]
  unfold addIfAbsent
  rw [if_neg hnr]
  exact filter_not_mem_strict hkey hnr

theorem reloadChildren_isSome (fuel : Nat)
    (hgo : ∀ s f, f ∈ regKeys s → f ∉ s.reloaded → mu s ≤ fuel →
      ∃ r, reloadAux fuel s f = some r) :
    ∀ ds s, mu s ≤ fuel →
      ∃ r, reloadChildren (reloadAux fuel) s ds = some r := by
  intro ds
  induction ds with
  | nil => intro s _; exact ⟨s, rfl⟩
  | cons d ds ih =>
    intro s hmu
    unfold reloadChildren
    cases hfind : findEntry s.registry d with
    | none => exact ih s hmu
    | some e =>
      by_cases hd : d ∈ s.reloaded
      · simp only [if_pos hd]
        exact ih s hmu
      · simp only [if_neg hd]
        have hkey : d ∈ regKeys s := findEntry_mem_of_some hfind
        obtain ⟨st', hst'⟩ := hgo s d hkey hd hmu
        rw [hst']
        have hrel := reloadAux_rel fuel s d st' hst'
        have hmu' : mu st' ≤ fuel :=
          le_trans (mu_mono (regKeys_of_map_eraseStash hrel.2.1) hrel.2.2.1) hmu
        exact ih st' hmu'

theorem reloadAux_isSome :
    ∀ fuel s f, f ∈ regKeys s → f ∉ s.reloaded → mu s ≤ fuel →
      ∃ r, reloadAux fuel s f = some r := by
  intro fuel
  induction fuel with
  | zero =>
    intro s f hkey hnr hmu
    exact absurd hmu (by have := mu_pos hkey hnr; omega)
  | succ fuel ih =>
    intro s f hkey hnr hmu
    obtain ⟨e, he⟩ := findEntry_isSome_of_mem hkey
    rw [reloadAux_succ_some fuel he]
    by_cases hcond :
        (e.accepted || decide ((reloadBody s f).graph.getDependantsOf f = [])) = true
    · rw [if_pos hcond]
      exact ⟨_, rfl⟩
    · rw [if_neg hcond]
      have hmu1 : mu (reloadBody s f) ≤ fuel := by
        have := mu_reloadBody hkey hnr
        omega
      exact reloadChildren_isSome fuel ih _ _ hmu1

/-! ## At-most-once processing: the log invariant -/

theorem logInv_reloadBody {s : St} {f : String} (hnr : f ∉ s.reloaded)
    (hinv : LogInv s) : LogInv (reloadBody s f) := by
  obtain ⟨hnd, hsub⟩ := hinv
  constructor
  · rw [reloadBody_log]
    have hf : f ∉ s.log := fun hmem => hnr (hsub f hmem)
    simp [List.nodup_append, hnd, hf]
  · intro x hx
    rw [reloadBody_log] at hx
    rw [reloadBody_reloaded]
    rcases List.mem_append.mp hx with hx | hx
    · exact mem_addIfAbsent_of_mem f (hsub x hx)
    · simp only [List.mem_singleton] at hx
      subst hx
      exact mem_addIfAbsent_self _ x

theorem reloadChildren_logInv {go : St → String → Option St}
    (hgo : ∀ s d r, d ∉ s.reloaded → go s d = some r → LogInv s → LogInv r) :
    ∀ ds s r, reloadChildren go s ds = some r → LogInv s → LogInv r := by
  intro ds
  induction ds with
  | nil =>
    intro s r h hinv
    cases h
    exact hinv
  | cons d ds ih =>
    intro s r h hinv
    cases hfind : findEntry s.registry d with
    | none =>
      rw [reloadChildren_cons_none ds hfind] at h
      exact ih s r h hinv
    | some e =>
      by_cases hd : d ∈ s.reloaded
      · rw [reloadChildren_cons_visited ds hfind hd] at h
        exact ih s r h hinv
      · cases hcall : go s d with
        | none =>
          rw [reloadChildren_cons_fail ds hfind hd hcall] at h
          cases h
        | some st' =>
          rw [reloadChildren_cons_call ds hfind hd hcall] at h
          exact ih st' r h (hgo s d st' hd hcall hinv)

theorem reloadAux_logInv :
    ∀ fuel s f r, f ∉ s.reloaded → reloadAux fuel s f = some r →
      LogInv s → LogInv r := by
  intro fuel
  induction fuel with
  | zero => intro s f r _ h; cases h
  | succ fuel ih =>
    intro s f r hnr h hinv
    cases hfind : findEntry s.registry f with
    | none =>
      rw [reloadAux_succ_none fuel hfind] at h
      cases h
      exact hinv
    | some e =>
      rw [reloadAux_succ_some fuel hfind] at h
      have hbody : LogInv (reloadBody s f) := logInv_reloadBody hnr hinv
      by_cases hcond :
          (e.accepted || decide ((reloadBody s f).graph.getDependantsOf f = [])) = true
      · rw [if_pos hcond] at h
        cases h
        exact hbody
      · rw [if_neg hcond] at h
        exact reloadChildren_logInv (fun s d r => ih s d r) _ _ _ h hbody

/-! ## Which filenames enter the acceptee set -/

theorem reloadChildren_acc {fuel : Nat}
    (hacc : ∀ s f r, reloadAux fuel s f = some r →
      ∀ x ∈ r.acceptees, x ∈ s.acceptees ∨ x = f ∨ x ∉ s.reloaded) :
    ∀ ds s r, reloadChildren (reloadAux fuel) s ds = some r →
      ∀ x ∈ r.acceptees, x ∈ s.acceptees ∨ x ∉ s.reloaded := by
  intro ds
  induction ds with
  | nil =>
    intro s r h x hx
    cases h
    exact Or.inl hx
  | cons d ds ih =>
    intro s r h x hx
    cases hfind : findEntry s.registry d with
    | none =>
      rw [reloadChildren_cons_none ds hfind] at h
      exact ih s r h x hx
    | some e =>
      by_cases hd : d ∈ s.reloaded
      · rw [reloadChildren_cons_visited ds hfind hd] at h
        exact ih s r h x hx
      · cases hcall : reloadAux fuel s d with
        | none =>
          rw [reloadChildren_cons_fail ds hfind hd hcall] at h
          cases h
        | some st' =>
          rw [reloadChildren_cons_call ds hfind hd hcall] at h
          have hrel := reloadAux_rel fuel s d st' hcall
          rcases ih st' r h x hx with hx' | hx'
          · rcases hacc s d st' hcall x hx' with h1 | h1 | h1
            · exact Or.inl h1
            · subst h1
              exact Or.inr hd
            · exact Or.inr h1
          · exact Or.inr (fun hmem => hx' (hrel.2.2.1 x hmem))

theorem reloadAux_acc :
    ∀ fuel s f r, reloadAux fuel s f = some r →
      ∀ x ∈ r.acceptees, x ∈ s.acceptees ∨ x = f ∨ x ∉ s.reloaded := by
  intro fuel
  induction fuel with
  | zero => intro s f r h; cases h
  | succ fuel ih =>
    intro s f r h x hx
    cases hfind : findEntry s.registry f with
    | none =>
      rw [reloadAux_succ_none fuel hfind] at h
      cases h
      exact Or.inl hx
    | some e =>
      rw [reloadAux_succ_some fuel hfind] at h
      by_cases hcond :
          (e.accepted || decide ((reloadBody s f).graph.getDependantsOf f = [])) = true
      · rw [if_pos hcond] at h
        cases h
        simp only at hx
        rcases mem_of_mem_addIfAbsent hx with hx' | hx'
        · rw [reloadBody_acceptees] at hx'
          exact Or.inl hx'
        · exact Or.inr (Or.inl hx')
      · rw [if_neg hcond] at h
        rcases reloadChildren_acc ih _ _ _ h x hx with hx' | hx'
        · rw [reloadBody_acceptees] at hx'
          exact Or.inl hx'
        · rw [reloadBody_reloaded] at hx'
          exact Or.inr (Or.inr (fun hmem => hx' (mem_addIfAbsent_of_mem f hmem)))

/-- After the dependants loop, every dependant that has a registry entry has
been visited. -/
theorem reloadChildren_visitsAll (fuel : Nat) :
    ∀ ds s r, reloadChildren (reloadAux fuel) s ds = some r →
      ∀ d ∈ ds, d ∈ regKeys s → d ∈ r.reloaded := by
  intro ds
  induction ds with
  | nil =>
    intro s r h d hd
    cases hd
  | cons d0 ds ih =>
    intro s r h d hd hkey
    have hrest :
        ∀ s', reloadChildren (reloadAux fuel) s' ds = some r →
          StepRel s s' → d ∈ ds → d ∈ r.reloaded := by
      intro s' h' hrel hd'
      have hkey' : d ∈ regKeys s' := by
        rw [regKeys_of_map_eraseStash hrel.2.1]
        exact hkey
      exact ih s' r h' d hd' hkey'
    cases hfind : findEntry s.registry d0 with
    | none =>
      rw [reloadChildren_cons_none ds hfind] at h
      rcases List.mem_cons.mp hd with rfl | hd'
      · exact absurd (findEntry_isSome_of_mem hkey) (by simp [hfind])
      · exact hrest s h (stepRel_refl s) hd'
    | some e =>
      by_cases hd0 : d0 ∈ s.reloaded
      · rw [reloadChildren_cons_visited ds hfind hd0] at h
        rcases List.mem_cons.mp hd with rfl | hd'
        · exact (reloadChildren_rel (fun s f r => reloadAux_rel fuel s f r)
            _ _ _ h).2.2.1 d hd0
        · exact hrest s h (stepRel_refl s) hd'
      · cases hcall : reloadAux fuel s d0 with
        | none =>
          rw [reloadChildren_cons_fail ds hfind hd0 hcall] at h
          cases h
        | some st' =>
          rw [reloadChildren_cons_call ds hfind hd0 hcall] at h
          have hrel := reloadAux_rel fuel s d0 st' hcall
          rcases List.mem_cons.mp hd with rfl | hd'
          · have hvis : d ∈ st'.reloaded :=
              reloadAux_visits fuel s d st' (findEntry_mem_of_some hfind) hcall
            exact (reloadChildren_rel (fun s f r => reloadAux_rel fuel s f r)
              _ _ _ h).2.2.1 d hvis
          · exact hrest st' h hrel hd'

/-! ## The claims -/

/-- C1 (amended): for a registered entry processed by `reload` (not yet
visited, not yet an acceptee), its filename enters the acceptee set iff the
entry is accepted or its dependants list (computed after its own outgoing
edges were removed) is empty; with no dependants and an empty acceptee set
the result is exactly the singleton of the module itself, regardless of the
acceptance flag; otherwise the module is not added and reload recurses into
every not-yet-visited dependant that has a registry entry, so that
afterwards every registered dependant has been visited. -/
theorem c1_reload_decision (fuel : Nat) (st : St) (f : String)
    (entry : RegistryEntry) (r : St)
    (hfind : findEntry st.registry f = some entry)
    (_hnr : f ∉ st.reloaded) (hna : f ∉ st.acceptees)
    (hrun : reloadAux (fuel + 1) st f = some r) :
    (f ∈ r.acceptees ↔ (entry.accepted = true ∨ reloadDependants st f = [])) ∧
    (entry.accepted = false → reloadDependants st f ≠ [] →
      ∀ d ∈ reloadDependants st f, d ∈ regKeys st → d ∈ r.reloaded) ∧
    (st.acceptees = [] → reloadDependants st f = [] → r.acceptees = [f]) := by
  rw [reloadAux_succ_some fuel hfind] at hrun
  rw [reloadDependants_eq]
  by_cases hcond :
      (entry.accepted || decide ((reloadBody st f).graph.getDependantsOf f = [])) = true
  · rw [if_pos hcond] at hrun
    cases hrun
    have hdec : entry.accepted = true ∨
        (reloadBody st f).graph.getDependantsOf f = [] := by
      rcases Bool.or_eq_true_iff.mp hcond with h | h
      · exact Or.inl h
      · exact Or.inr (of_decide_eq_true h)
    refine ⟨⟨fun _ => hdec, fun _ => ?_⟩, ?_, ?_⟩
    · show f ∈ addIfAbsent (reloadBody st f).acceptees f
      exact mem_addIfAbsent_self _ f
    · intro hacc hdeps
      rcases hdec with h | h
      · exact absurd h (by simp [hacc])
      · exact absurd h hdeps
    · intro hempty hdeps
      show addIfAbsent (reloadBody st f).acceptees f = [f]
      rw [reloadBody_acceptees, hempty]
      rfl
  · rw [if_neg hcond] at hrun
    simp only [Bool.or_eq_true_iff, decide_eq_true_eq, not_or] at hcond
    obtain ⟨haccF, hdepsF⟩ := hcond
    have haccF' : entry.accepted = false := by
      cases hacc : entry.accepted
      · rfl
      · exact absurd hacc haccF
    refine ⟨⟨fun hmem => ?_, fun hdec => ?_⟩, fun _ _ => ?_, fun _ hdeps => ?_⟩
    · rcases reloadChildren_acc (reloadAux_acc fuel) _ _ _ hrun f hmem with h | h
      · rw [reloadBody_acceptees] at h
        exact absurd h hna
      · rw [reloadBody_reloaded] at h
        exact absurd (mem_addIfAbsent_self _ f) h
    · rcases hdec with h | h
      · exact absurd h (by simp [haccF'])
      · exact absurd h hdepsF
    · intro d hd hkey
      have hkey' : d ∈ regKeys (reloadBody st f) := by
        rw [regKeys_reloadBody]
        exact hkey
      exact reloadChildren_visitsAll fuel _ _ r hrun d hd hkey'
    · exact absurd hdeps hdepsF

/-- C1 counterexample to the claim as stated: in `c1St` the module f is not
accepted and has the dependant X (recorded by the require hook because the
ineligible module X required f), X is not yet visited, yet `reload` never
recurses into X — X has no registry entry, so it is skipped and ends up
neither visited nor processed. -/
theorem c1_counterexample :
    reloadDependants c1St "f" = ["X"] ∧
    (findEntry c1St.registry "f").map (·.accepted) = some false ∧
    c1St.reloaded = [] ∧
    (reloadTop c1St "f").map (fun r => decide ("X" ∈ r.reloaded)) = some false ∧
    (reloadTop c1St "f").map (fun r => decide ("X" ∈ r.log)) = some false := by
  decide

/-- Witness for C1 at a concrete input: a single registered module with no
dependants becomes the sole acceptee. -/
theorem c1_reload_decision_witness :
    ("a" ∈ (St.mk {} [{ mod := "a", filename := "a" }] ⟨[]⟩ [] [] ["a"] ["a"]
        ["a"] []).acceptees ↔
      (({ mod := "a", filename := "a" } : RegistryEntry).accepted = true ∨
        reloadDependants { registry := [{ mod := "a", filename := "a" }] } "a" = [])) ∧
    (({ mod := "a", filename := "a" } : RegistryEntry).accepted = false →
      reloadDependants { registry := [{ mod := "a", filename := "a" }] } "a" ≠ [] →
      ∀ d ∈ reloadDependants { registry := [{ mod := "a", filename := "a" }] } "a",
        d ∈ regKeys { registry := [{ mod := "a", filename := "a" }] } →
        d ∈ (St.mk {} [{ mod := "a", filename := "a" }] ⟨[]⟩ [] [] ["a"] ["a"]
          ["a"] []).reloaded) ∧
    ((St.mk {} [{ mod := "a", filename := "a" }] ⟨[]⟩ [] [] [] [] [] []
        : St).acceptees = [] →
      reloadDependants { registry := [{ mod := "a", filename := "a" }] } "a" = [] →
      (St.mk {} [{ mod := "a", filename := "a" }] ⟨[]⟩ [] [] ["a"] ["a"]
        ["a"] []).acceptees = ["a"]) := by
  have h := c1_reload_decision 0
    { registry := [{ mod := "a", filename := "a" }] } "a"
    { mod := "a", filename := "a" }
    (St.mk {} [{ mod := "a", filename := "a" }] ⟨[]⟩ [] [] ["a"] ["a"] ["a"] [])
    (by decide) (by decide) (by decide) (by decide)
  exact ⟨h.1, h.2.1, fun _ => h.2.2 rfl⟩

/-- C3: for every dependency graph, cyclic ones included, `reload` of a
registered file terminates — fuel one more than the registry size always
suffices and more fuel never changes the result — and within one change
event each registry entry is processed (store invoked, cache evicted, edges
removed) at most once: the processing log has no duplicates. -/
theorem c3_reload_terminates_once (st : St) (f : String)
    (hkey : f ∈ regKeys st) (hrel : st.reloaded = []) (hlog : st.log = []) :
    (reloadAux (st.registry.length + 1) st f).isSome = true ∧
    (∀ m, st.registry.length + 1 ≤ m →
      reloadAux m st f = reloadAux (st.registry.length + 1) st f) ∧
    (∀ r, reloadAux (st.registry.length + 1) st f = some r → r.log.Nodup) := by
  have hnr : f ∉ st.reloaded := by rw [hrel]; simp
  have hmu : mu st ≤ st.registry.length + 1 := by
    have h1 : mu st ≤ (regKeys st).length := List.length_filter_le _ _
    have h2 : (regKeys st).length = st.registry.length := List.length_map _ _
    omega
  obtain ⟨r, hr⟩ := reloadAux_isSome (st.registry.length + 1) st f hkey hnr hmu
  refine ⟨by rw [hr]; rfl, fun m hm => ?_, fun r' hr' => ?_⟩
  · rw [hr]
    exact reloadAux_fuelMono _ m st f r hm hr
  · have hinv : LogInv st := ⟨by rw [hlog]; exact List.nodup_nil,
      fun x hx => by rw [hlog] at hx; cases hx⟩
    exact (reloadAux_logInv _ st f r' hnr hr' hinv).1

/-- Witness for C3 at the cyclic graph `c3St` (A and B require each other):
reload of A terminates, is fuel-independent, and processes A and B once. -/
theorem c3_reload_terminates_once_witness :
    (reloadAux 3 c3St "A").isSome = true ∧
    reloadAux 9 c3St "A" = reloadAux 3 c3St "A" ∧
    (St.mk {} c3St.registry ⟨[]⟩ [] [] ["B"] ["A", "B"] ["A", "B"] []).log.Nodup := by
  have h := c3_reload_terminates_once c3St "A" (by decide) (by decide) (by decide)
  refine ⟨h.1, h.2.1 9 (by decide), h.2.2 _ ?_⟩
  decide

/-- C2 counterexample: in the chain `c2St` (entry point A requires B, B
requires C, all eligible, cached and registered, nothing accepted), the
change event for C produces the acceptee set `{B}`, not `{A}` as claimed:
the hook records no edge for requires issued by the process entry point, so
B has no dependants and becomes the reload root. -/
theorem c2_counterexample :
    (onChange c2St "C").acceptees = ["B"] ∧
    "A" ∉ (onChange c2St "C").acceptees := by
  decide

/-- C2 (amended): for every acyclic chain A→B→C built through the require
hook — the entry point a requires b, b requires c, everything eligible and
cached, nothing accepted — the change event for c produces the acceptee set
`{b}`: the hook records no dependency edge for the require issued by the
process entry point, so b has no dependants and is the reload root. -/
theorem c2_chain_acceptee (a b c : String)
    (hab : a ≠ b) (hac : a ≠ c) (hbc : b ≠ c) :
    (onChange
      (runHooks (fun _ => true) a
        { registry :=
            [{ mod := a, filename := a }, { mod := b, filename := b },
             { mod := c, filename := c }],
          cache := [a, b, c] }
        [(a, b), (b, c)]) c).acceptees = [b] := by
  simp [runHooks, requireHook, Graph.addDependency, onChange, findEntry,
    reloadTop, reloadAux, reloadChildren, reloadBody, reloadDependants,
    Graph.removeDependencies, Graph.getDependantsOf, updateEntry, invokeStore,
    addIfAbsent, hab, hac, hbc, Ne.symm hab, Ne.symm hac, Ne.symm hbc]

/-- Witness for C2's amended claim at the names A, B, C. -/
theorem c2_chain_acceptee_witness :
    (onChange
      (runHooks (fun _ => true) "A"
        { registry :=
            [{ mod := "A", filename := "A" }, { mod := "B", filename := "B" },
             { mod := "C", filename := "C" }],
          cache := ["A", "B", "C"] }
        [("A", "B"), ("B", "C")]) "C").acceptees = ["B"] :=
  c2_chain_acceptee "A" "B" "C" (by decide) (by decide) (by decide)

/-- C4 counterexample: in `c4St` (B requires C, C changes, B is the sole
acceptee) the driving logic issues the require call with the mod of the
*changed* file's entry — the module C — as the caller, although the
acceptee B's own registry entry has mod B. -/
theorem c4_counterexample :
    (reloadTop c4St "C").map (·.acceptees) = some ["B"] ∧
    (onChange c4St "C").requireCalls = [("C", "B")] ∧
    (findEntry c4St.registry "B").map (·.mod) = some "B" ∧
    ("B", "B") ∉ (onChange c4St "C").requireCalls := by
  decide

/-- C4 (amended): after the propagation engine returns, every acceptee is
re-required with the owning module stored in the registry entry of the
*changed* file (the file reported by the watcher) as the caller — the same
caller for all acceptees, not each acceptee's own owning module. -/
theorem c4_requireCaller (st : St) (file : String) (entry : RegistryEntry)
    (r : St) (hfind : findEntry st.registry file = some entry)
    (hrun : reloadTop st file = some r) :
    (onChange st file).requireCalls =
      st.requireCalls ++ r.acceptees.map (fun a => (entry.mod, a)) := by
  unfold onChange
  rw [hfind, hrun]
  have hcalls : r.requireCalls = st.requireCalls :=
    (reloadAux_rel _ st file r hrun).2.2.2.2
  simp [hcalls]

/-- Witness for C4's amended claim: a single self-contained module whose
entry's mod differs from its filename. -/
theorem c4_requireCaller_witness :
    (onChange { registry := [{ mod := "m", filename := "a" }] } "a").requireCalls =
      ([] : List (String × String)) ++
        (St.mk {} [{ mod := "m", filename := "a" }] ⟨[]⟩ [] [] ["a"] ["a"]
          ["a"] []).acceptees.map (fun x => ("m", x)) := by
  have h := c4_requireCaller { registry := [{ mod := "m", filename := "a" }] } "a"
    { mod := "m", filename := "a" }
    (St.mk {} [{ mod := "m", filename := "a" }] ⟨[]⟩ [] [] ["a"] ["a"] ["a"] [])
    (by decide) (by decide)
  exact h

/-! ## The patcher: names are stable, histories only grow -/

theorem getC_name (h : Heap) (i : Nat) :
    (h.getC i).name = (h.map (·.name)).getD i "" := by
  induction h generalizing i with
  | nil => cases i <;> rfl
  | cons a l ih =>
    cases i with
    | zero => rfl
    | succ i => exact ih i

theorem names_setC (h : Heap) (i : Nat) (c : CtorObj)
    (hname : c.name = (h.getC i).name) :
    (h.setC i c).map (·.name) = h.map (·.name) := by
  induction h generalizing i with
  | nil => rfl
  | cons a l ih =>
    cases i with
    | zero =>
      show (c :: l).map (·.name) = (a :: l).map (·.name)
      simp only [List.map_cons]
      rw [hname]
      rfl
    | succ i =>
      show (a :: Heap.setC l i c).map (·.name) = (a :: l).map (·.name)
      simp only [List.map_cons]
      rw [ih i hname]

theorem names_patchStep (h : Heap) (a b : Nat) :
    (patchStep h a b).map (·.name) = h.map (·.name) := by
  have e1 : ∀ (hh : Heap) (i : Nat) (st : Props),
      (Heap.setC hh i { hh.getC i with statics := st }).map (·.name) =
        hh.map (·.name) :=
    fun hh i st => names_setC hh i _ rfl
  have e2 : ∀ (hh : Heap) (i : Nat) (pp : Props),
      (Heap.setC hh i { hh.getC i with protoProps := pp }).map (·.name) =
        hh.map (·.name) :=
    fun hh i pp => names_setC hh i _ rfl
  have e3 : ∀ (hh : Heap) (i : Nat) (pd : Nat),
      (Heap.setC hh i { hh.getC i with protoDeleg := pd }).map (·.name) =
        hh.map (·.name) :=
    fun hh i pd => names_setC hh i _ rfl
  simp only [patchStep]
  rw [e3, e2, e1, e1]

theorem names_foldl_patch (c : Nat) (hist : List Nat) (h : Heap) :
    (hist.foldl (fun h old => patchStep h c old) h).map (·.name) =
      h.map (·.name) := by
  induction hist generalizing h with
  | nil => rfl
  | cons o hist ih =>
    rw [List.foldl_cons, ih, names_patchStep]

theorem patchPairs_congr {h1 h2 : Heap}
    (hn : h1.map (·.name) = h2.map (·.name)) (ps : Patchees) (cs : List Nat) :
    patchPairs ps h1 cs = patchPairs ps h2 cs := by
  induction cs generalizing ps with
  | nil => rfl
  | cons c rest ih =>
    have hname : (h1.getC c).name = (h2.getC c).name := by
      rw [getC_name, getC_name, hn]
    simp only [patchPairs, hname]
    rw [ih]

theorem lookupHist_setHist_self (ps : Patchees) (n : String) (l : List Nat) :
    lookupHist (setHist ps n l) n = some l := by
  induction ps with
  | nil => simp [setHist, lookupHist]
  | cons p ps ih =>
    by_cases hp : p.1 = n
    · simp [setHist, hp, lookupHist]
    · simp [setHist, hp, lookupHist, ih]

theorem lookupHist_setHist_ne (ps : Patchees) {n n' : String} (l : List Nat)
    (h : n' ≠ n) : lookupHist (setHist ps n l) n' = lookupHist ps n' := by
  have hn : ¬ n = n' := fun he => h he.symm
  induction ps with
  | nil => simp [setHist, lookupHist, hn]
  | cons p ps ih =>
    by_cases hp : p.1 = n
    · have hp' : ¬ p.1 = n' := by rw [hp]; exact hn
      simp [setHist, hp, lookupHist, hp', hn]
    · by_cases hp' : p.1 = n'
      · simp [setHist, hp, lookupHist, hp', h]
      · simp [setHist, hp, lookupHist, hp', ih]

/-- C5: `hot.patch(C1, ..., Cn)` processes the constructors in argument
order; for each one the history for its declared name is looked up or
created and the constructor is appended to it, so each name's history grows
by exactly the same-named arguments (and in particular never shrinks); and
the heap mutation is exactly the fold of the (a)–(d) update `patchStep`
over the schedule: for each constructor in argument order, every previously
recorded identity of its name, oldest to newest, all of them. -/
theorem c5_patch_schedule (st : PatchSt) (cs : List Nat) :
    (hotPatch st cs).heap =
      (patchPairs st.patchees st.heap cs).foldl
        (fun h p => patchStep h p.1 p.2) st.heap ∧
    (∀ n, (lookupHist (hotPatch st cs).patchees n).getD [] =
      (lookupHist st.patchees n).getD [] ++
        cs.filter (fun c => decide ((st.heap.getC c).name = n))) := by
  induction cs generalizing st with
  | nil => exact ⟨rfl, fun n => by simp [hotPatch, patchPairs]⟩
  | cons c rest ih =>
    have hstep : hotPatch st (c :: rest) = hotPatch (patchOne st c) rest := rfl
    have hheap : (patchOne st c).heap =
        ((lookupHist st.patchees (st.heap.getC c).name).getD []).foldl
          (fun h old => patchStep h c old) st.heap := rfl
    have hps : (patchOne st c).patchees =
        setHist st.patchees (st.heap.getC c).name
          ((lookupHist st.patchees (st.heap.getC c).name).getD [] ++ [c]) := rfl
    have hnames : (patchOne st c).heap.map (·.name) = st.heap.map (·.name) := by
      rw [hheap]
      exact names_foldl_patch c _ st.heap
    obtain ⟨ih1, ih2⟩ := ih (patchOne st c)
    constructor
    · rw [hstep, ih1, patchPairs_congr hnames]
      show _ = (patchPairs st.patchees st.heap (c :: rest)).foldl
        (fun h p => patchStep h p.1 p.2) st.heap
      simp only [patchPairs]
      rw [List.foldl_append, List.foldl_map, hps, hheap]
    · intro n
      have hfiltcong : rest.filter
            (fun c' => decide (((patchOne st c).heap.getC c').name = n)) =
          rest.filter (fun c' => decide ((st.heap.getC c').name = n)) := by
        apply List.filter_congr
        intro a _
        rw [getC_name, hnames, ← getC_name]
      rw [hstep, ih2 n, hfiltcong, hps]
      by_cases hn : (st.heap.getC c).name = n
      · rw [hn, lookupHist_setHist_self]
        simp [List.filter_cons, hn, List.append_assoc]
      · rw [lookupHist_setHist_ne _ _ (fun he => hn he.symm)]
        simp [List.filter_cons, hn]

/-- C6: `restore` invokes the procedure with the current stash contents and
clears the stash exactly when a stash exists (the first component is the
payload handed to the procedure, `none` meaning it was not invoked), so a
second `restore` in the same cycle invokes nothing and observes nothing;
and a `store` whose handler was invoked delivers exactly the stashed
contents to the next `restore`. -/
theorem c6_restore_once (e : RegistryEntry) (v : Stash) :
    (hotRestore e).1 = e.stash ∧
    (hotRestore e).2.stash = none ∧
    hotRestore (hotRestore e).2 = (none, (hotRestore e).2) ∧
    (hotRestore (invokeStore (hotStore e v))).1 = some v := by
  cases h : e.stash <;> simp [hotRestore, hotStore, invokeStore, h]

/-- C7: `accept` sets the accepted flag and is idempotent, and no other
operation resets it: `store`, `restore` and `patch` leave the flag
untouched, `registerFile` and `injectFile` never overwrite an existing
entry, `configure` does not touch the registry, and `reload` preserves
every entry up to its stash — in particular its accepted flag. -/
theorem c7_accepted_monotone :
    (∀ e : RegistryEntry, (hotAccept e).accepted = true) ∧
    (∀ e : RegistryEntry, hotAccept (hotAccept e) = hotAccept e) ∧
    (∀ (e : RegistryEntry) (v : Stash), (hotStore e v).accepted = e.accepted) ∧
    (∀ e : RegistryEntry, (invokeStore e).accepted = e.accepted) ∧
    (∀ e : RegistryEntry, (hotRestore e).2.accepted = e.accepted) ∧
    (∀ (e : RegistryEntry) (h : Heap) (cs : List Nat),
      (entryPatch e h cs).1.accepted = e.accepted) ∧
    (∀ (reg : List RegistryEntry) (m f x : String) (e : RegistryEntry),
      findEntry reg x = some e → findEntry (registerFile reg m f).1 x = some e) ∧
    (∀ (reg : List RegistryEntry) (hh : Bool) (m f x : String) (e : RegistryEntry),
      findEntry reg x = some e → findEntry (injectFile reg hh m f) x = some e) ∧
    (∀ (st : St) (o : Options), (configureSt st o).registry = st.registry) ∧
    (∀ (fuel : Nat) (s : St) (g : String) (r : St) (f : String) (e : RegistryEntry),
      reloadAux fuel s g = some r → findEntry s.registry f = some e →
      ∃ e', findEntry r.registry f = some e' ∧ e'.accepted = e.accepted) := by
  have hreg : ∀ (reg : List RegistryEntry) (m f x : String) (e : RegistryEntry),
      findEntry reg x = some e → findEntry (registerFile reg m f).1 x = some e := by
    intro reg m f x e h
    unfold registerFile
    cases hfind : findEntry reg f with
    | none => exact findEntry_append_of_some _ h
    | some e' => exact h
  refine ⟨fun e => rfl, fun e => rfl, fun e v => rfl,
    invokeStore_accepted, fun e => ?_, fun e h cs => rfl, hreg,
    fun reg hh m f x e h => ?_, fun st o => rfl,
    fun fuel s g r f e hrun hfind => ?_⟩
  · cases h : e.stash <;> simp [hotRestore, h]
  · unfold injectFile
    cases hh
    · simp only [Bool.false_eq_true, if_false]
      exact hreg reg m f x e h
    · simpa using h
  · have hmap := (reloadAux_rel fuel s g r hrun).2.1
    have hcong := findEntry_map_eraseStash hmap f
    rw [hfind] at hcong
    cases hfind' : findEntry r.registry f with
    | none =>
      rw [hfind'] at hcong
      cases hcong
    | some e' =>
      rw [hfind'] at hcong
      refine ⟨e', rfl, ?_⟩
      have : eraseStash e' = eraseStash e := by
        simpa using hcong
      have := congrArg RegistryEntry.accepted this
      simpa [eraseStash] using this

/-- Witness for C7: the get-or-create operations at concrete inputs leave
an existing accepted entry intact. -/
theorem c7_accepted_monotone_witness :
    findEntry
      (registerFile [{ mod := "a", filename := "a", accepted := true }] "m" "b").1
      "a" = some { mod := "a", filename := "a", accepted := true } ∧
    findEntry
      (injectFile [{ mod := "a", filename := "a", accepted := true }] false "m" "b")
      "a" = some { mod := "a", filename := "a", accepted := true } := by
  have h := c7_accepted_monotone
  exact ⟨h.2.2.2.2.2.2.1 _ "m" "b" "a" _ (by decide),
    h.2.2.2.2.2.2.2.1 _ false "m" "b" "a" _ (by decide)⟩

/-- C8: `patchExports` passes to `patch` exactly the constructor-like
values: the own-property values of a plain-object export, or the export
value itself when it is constructor-like; everything else (in particular
every non-constructor own-property value) is never passed. The concrete
second part is the `{ Foo: class, bar: 42 }` example. -/
theorem c8_patchExports_targets :
    (∀ e v, v ∈ patchExportsTargets e ↔
      (isConstructorLike v = true ∧
        (v ∈ ownValues e ∨ (isPlainObject e = false ∧ v = e)))) ∧
    patchExportsTargets
      (.obj [("Foo", .ctorLike 0), ("bar", .prim 42)]) = [.ctorLike 0] := by
  constructor
  · intro e v
    cases e with
    | obj ps =>
      simp only [patchExportsTargets, isPlainObject, if_true, List.mem_filter,
        ownValues, Bool.true_eq_false, false_and, or_false]
      exact ⟨fun h => ⟨h.2, h.1⟩, fun h => ⟨h.2, h.1⟩⟩
    | ctorLike i =>
      simp only [patchExportsTargets, isPlainObject, Bool.false_eq_true,
        if_false, isConstructorLike, if_true, List.mem_singleton, ownValues,
        List.not_mem_nil, false_or, true_and]
      constructor
      · rintro rfl
        exact ⟨rfl, rfl⟩
      · rintro ⟨_, rfl⟩
        rfl
    | prim n =>
      simp only [patchExportsTargets, isPlainObject, Bool.false_eq_true,
        if_false, isConstructorLike, List.not_mem_nil, ownValues, false_or,
        true_and, false_iff, not_and]
      rintro h rfl
      cases h
  · rfl

/-- The require hook does nothing when the path is not eligible. -/
theorem requireHook_not_elig {elig : String → Bool} {path : String}
    (main : String) (st : St) (caller : String) (h : elig path = false) :
    requireHook elig main st caller path = st := by
  simp [requireHook, h]

/-- The require hook does nothing when the path is missing from the cache. -/
theorem requireHook_not_cached {path : String} (elig : String → Bool)
    (main : String) {st : St} (caller : String) (h : path ∉ st.cache) :
    requireHook elig main st caller path = st := by
  simp [requireHook, h]

/-- An eligible cached require from the main module only arms the watch. -/
theorem requireHook_main {elig : String → Bool} {path : String} {st : St}
    (main : String) (h1 : elig path = true) (h2 : path ∈ st.cache) :
    requireHook elig main st main path =
      { st with watched := addIfAbsent st.watched path } := by
  simp [requireHook, h1, h2]

/-- An eligible cached require from any other module records the edge and
arms the watch. -/
theorem requireHook_other {elig : String → Bool} {path : String} {st : St}
    {main caller : String} (h1 : elig path = true) (h2 : path ∈ st.cache)
    (hc : caller ≠ main) :
    requireHook elig main st caller path =
      { st with graph := st.graph.addDependency caller path,
                watched := addIfAbsent st.watched path } := by
  simp [requireHook, h1, h2, hc]

/-- C9: an intercepted require whose resolved path is ineligible, or
eligible but absent from the module cache, returns the unmodified export
value and leaves the whole state alone — no dependency edge, no watch. -/
theorem c9_require_shortCircuit (elig : String → Bool) (main : String)
    (st : St) (caller path : String) (xports : Nat)
    (h : elig path = false ∨ path ∉ st.cache) :
    requireHookFull elig main st caller path xports = (xports, st) := by
  unfold requireHookFull
  rcases h with h | h
  · rw [requireHook_not_elig main st caller h]
  · rw [requireHook_not_cached elig main caller h]

/-- Witness for C9 at concrete inputs (an ineligible path). -/
theorem c9_require_shortCircuit_witness :
    requireHookFull (fun _ => false) "m" { cache := ["b"] } "a" "b" 7 =
      (7, { cache := ["b"] }) :=
  c9_require_shortCircuit (fun _ => false) "m" { cache := ["b"] } "a" "b" 7
    (Or.inl rfl)

/-- No single hook call records an edge whose dependent is the main module. -/
theorem requireHook_no_main_edge (elig : String → Bool) (main : String)
    (st : St) (caller path : String)
    (h : ∀ e ∈ st.graph.edges, e.1 ≠ main) :
    ∀ e ∈ (requireHook elig main st caller path).graph.edges, e.1 ≠ main := by
  intro e he
  by_cases h1 : elig path = true
  · by_cases h2 : path ∈ st.cache
    · by_cases hc : caller = main
      · subst hc
        rw [requireHook_main _ h1 h2] at he
        exact h e he
      · rw [requireHook_other h1 h2 hc] at he
        unfold Graph.addDependency at he
        by_cases hmem : (caller, path) ∈ st.graph.edges
        · rw [if_pos hmem] at he
          exact h e he
        · rw [if_neg hmem] at he
          simp only [List.mem_append, List.mem_singleton] at he
          rcases he with he | he
          · exact h e he
          · subst he
            exact hc
    · rw [requireHook_not_cached elig main caller h2] at he
      exact h e he
  · have h1' : elig path = false := by
      cases hel : elig path
      · rfl
      · exact absurd hel h1
    rw [requireHook_not_elig main st caller h1'] at he
    exact h e he

/-- C10: an eligible, cached require whose caller is the main module adds
the path to the watcher but records no dependency edge; and across any
sequence of hook calls the graph never acquires an edge whose dependent is
the main module. -/
theorem c10_main_no_edge (elig : String → Bool) (main : String) (st : St)
    (path : String) (calls : List (String × String))
    (h1 : elig path = true) (h2 : path ∈ st.cache)
    (h3 : ∀ e ∈ st.graph.edges, e.1 ≠ main) :
    (requireHook elig main st main path).graph = st.graph ∧
    (requireHook elig main st main path).watched = addIfAbsent st.watched path ∧
    (∀ e ∈ (runHooks elig main st calls).graph.edges, e.1 ≠ main) := by
  refine ⟨?_, ?_, ?_⟩
  · rw [requireHook_main main h1 h2]
  · rw [requireHook_main main h1 h2]
  · clear h1 h2
    induction calls generalizing st with
    | nil => exact h3
    | cons cpair rest ih =>
      exact ih (requireHook elig main st cpair.1 cpair.2)
        (requireHook_no_main_edge elig main st cpair.1 cpair.2 h3)

/-- Witness for C10 at concrete inputs: a main-module require watches but
does not record, and a later non-main require keeps the invariant. -/
theorem c10_main_no_edge_witness :
    (requireHook (fun _ => true) "A" { cache := ["B"] } "A" "B").graph =
      (⟨[]⟩ : Graph) ∧
    (requireHook (fun _ => true) "A" { cache := ["B"] } "A" "B").watched =
      addIfAbsent [] "B" ∧
    (∀ e ∈ (runHooks (fun _ => true) "A" { cache := ["B"] }
        [("A", "B"), ("X", "B")]).graph.edges, e.1 ≠ "A") := by
  have h := c10_main_no_edge (fun _ => true) "A" { cache := ["B"] } "B"
    [("A", "B"), ("X", "B")] rfl (by decide) (by intro e he; cases he)
  exact h

end NodeHot
